import Mathlib

/-!
The Godot SDK generator (`sdks/godot/gen.go`).

A shallow embedding of the generator's template helpers (`ToGodotType`,
`GetSchemRef`, `ParseUrlParams`) and of the run loop of `main`, followed by
theorems about them.

Conventions of the embedding:

* a Go `string` is a Lean `String`; the texts handled here come out of a JSON
  decoder and are valid UTF-8, where substring search on bytes and on code
  points agree;
* a Go `interface{}` holding decoded JSON is a `Value`;
* a Go `map[string]interface{}` is an association list read with `List.lookup`;
* a helper that can panic (a failed type assertion) returns `Option`, with
  `none` for the panic;
* the template engine, the template files and the file system are external:
  they enter `main` through an `Env` and an explicit `World`.
-/

namespace GodotGen

/-! ## Decoded JSON values -/

/-- What `encoding/json` stores in an `interface{}`: `nil`, `bool`, `float64`
(carried by its bit pattern, never inspected here), `string`, `[]interface{}`
and `map[string]interface{}`. -/
inductive Value where
  | null : Value
  | bool (b : Bool) : Value
  | num (bits : Nat) : Value
  | str (s : String) : Value
  | arr (items : List Value) : Value
  | obj (fields : List (String × Value)) : Value

/-- A Go `map[string]interface{}`. -/
abbrev GoMap := List (String × Value)

/-! ## `strings.Replace(s, old, new, -1)` -/

/-- The scan of `strings.Replace` for a non-empty `old`: `skip` counts the
characters of the current match still to be dropped. At each position outside
a match, the leftmost occurrence of `old` is replaced by `new` and the scan
resumes behind it, so the replaced occurrences do not overlap. -/
def replaceFrom (old new : List Char) : Nat → List Char → List Char
  | _, [] => []
  | k + 1, _ :: t => replaceFrom old new k t
  | 0, c :: t =>
    if old.isPrefixOf (c :: t) then new ++ replaceFrom old new (old.length - 1) t
    else c :: replaceFrom old new 0 t

/-- All non-overlapping occurrences of `old` in `s` replaced by `new`. An empty
`old` matches before every character and at the end of the text. -/
def replaceAll (old new s : List Char) : List Char :=
  if old = [] then new ++ s.flatMap (fun c => c :: new) else replaceFrom old new 0 s

/-- The call `strings.Replace(s, old, new, -1)`. -/
def Replace (s old new : String) : String :=
  ⟨replaceAll old.data new.data s.data⟩

/-! ## The template helpers -/

/-- The helper `ToGodotType`: converts swagger types to Godot types. -/
def ToGodotType (v : String) : String :=
  match v with
  | "string" => "String"
  | "integer" => "int"
  | "number" => "float"
  | "boolean" => "bool"
  | _ => "Object"

/-- The helper `GetSchemRef`: `val, ok := schema["$ref"]`, then the unchecked
assertion `val.(string)`, which panics (`none`) on any other dynamic type. -/
def GetSchemRef (schema : GoMap) : Option String :=
  match schema.lookup "$ref" with
  | some (Value.str s) => some s
  | some _ => none
  | none => some ""

/-- The assertion `param, _ := key.(map[string]interface{})`: on any other
dynamic type `param` is the nil map, which has no keys. -/
def asMap (key : Value) : GoMap :=
  match key with
  | Value.obj fields => fields
  | _ => []

/-- The test `param["in"] == "path"`: an interface value equals the string
constant when it holds a string with that text. -/
def inPath (param : GoMap) : Bool :=
  match param.lookup "in" with
  | some (Value.str s) => s == "path"
  | _ => false

/-- The body of the `for _, key := range params` loop of `ParseUrlParams` on
the state `(url, pathVars)`. For a path parameter the name is read with the
unchecked assertion `param["name"].(string)` in both branches of the
`pathVars == 0` test, so a missing or non-string name panics (`none`); the
preceding `strings.Replace` has no effect that survives the panic. -/
def urlStep (st : String × Nat) (key : Value) : Option (String × Nat) :=
  let param := asMap key
  if inPath param then
    match param.lookup "name" with
    | some (Value.str name) =>
      let url := Replace st.1 ("\x7b" ++ name ++ "\x7d") "%s"
      let url := if st.2 = 0 then url ++ "% [" ++ name else url ++ ", " ++ name
      some (url, st.2 + 1)
    | _ => none
  else some st

/-- The loop `for _, key := range params` of `ParseUrlParams`. -/
def urlLoop : List Value → String × Nat → Option (String × Nat)
  | [], st => some st
  | key :: rest, st =>
    match urlStep st key with
    | some st1 => urlLoop rest st1
    | none => none

/-- The helper `ParseUrlParams`: builds the URL string expression with
formatting for Godot. `pathVars` never exceeds `len(params)`, so the machine
integer cannot overflow. -/
def ParseUrlParams (url : String) (params : List Value) : Option String :=
  match urlLoop params ("\"" ++ url ++ "\"", 0) with
  | some (url1, pathVars) =>
    let url2 := if pathVars > 0 then url1 ++ "]" else url1
    some ("(" ++ url2 ++ ")")
  | none => none

/-- The helper `MaxIndex`: `len(list) - 1`. -/
def MaxIndex (list : List Value) : Int := (list.length : Int) - 1

/-! ## Vocabulary of the claims about `ParseUrlParams` -/

/-- A parameter is a path parameter when `in == "path"`. -/
def isPathParam (key : Value) : Bool := inPath (asMap key)

/-- The name of a parameter when it is a string. -/
def paramName (key : Value) : Option String :=
  match (asMap key).lookup "name" with
  | some (Value.str name) => some name
  | _ => none

/-- The string names of the path parameters, in input order. -/
def pathNames (params : List Value) : List String :=
  (params.filter isPathParam).filterMap paramName

/-- Every path parameter carries a string name. -/
def pathNamesAreStrings (params : List Value) : Prop :=
  ∀ key ∈ params, isPathParam key = true → (paramName key).isSome = true

/-- The characters of the placeholder `{name}`. -/
def pat (n : List Char) : List Char := '\x7b' :: (n ++ ['\x7d'])

/-- The placeholder `{name}`. -/
def placeholder (name : String) : String := "\x7b" ++ name ++ "\x7d"

/-- The text contains neither `{` nor `}`. -/
def braceFree (s : String) : Prop := '\x7b' ∉ s.data ∧ '\x7d' ∉ s.data

/-- The URL after replacing, for each name in order, every occurrence of its
placeholder by `%s`. -/
def substituted (u : String) (names : List String) : String :=
  names.foldl (fun acc n => Replace acc (placeholder n) "%s") u

/-- The names joined by `, `. -/
def joinArgs : List String → String
  | [] => ""
  | [n] => n
  | n :: m :: rest => n ++ ", " ++ joinArgs (m :: rest)

/-- The formatting operator and the opened argument list that follow the
quoted literal once `args` have been appended: nothing for no argument. -/
def argText : List String → String
  | [] => ""
  | n :: rest => "% [" ++ joinArgs (n :: rest)

/-- The pattern occurs in the text. -/
def occursIn (pat s : String) : Prop := pat.data <:+: s.data

/-- Number of positions of `s` at which `pat` starts. -/
def countAt (pat : List Char) : List Char → Nat
  | [] => if pat = [] then 1 else 0
  | c :: t => (if pat.isPrefixOf (c :: t) then 1 else 0) + countAt pat t

/-- Number of occurrences of the pattern in the text. -/
def occurrences (pat s : String) : Nat := countAt pat.data s.data

/-- The text behind the last occurrence of the character `c`, if `c` occurs. -/
def afterLast (c : Char) : List Char → Option (List Char)
  | [] => none
  | x :: t =>
    match afterLast c t with
    | some r => some r
    | none => if x = c then some t else none

/-- The text of the argument list of a built expression: what stands between
the formatting operator and its bracket, `% [`, and the closing `])`. The
operator is read at the last `%` of the expression; an expression without
it has no argument list. -/
def argumentList (out : String) : Option (List Char) :=
  match afterLast '%' out.data with
  | some (' ' :: '[' :: rest) =>
    match rest.reverse with
    | ')' :: ']' :: inner => some inner.reverse
    | _ => none
  | _ => none

/-- The text holds white space only. -/
def isBlank (text : List Char) : Bool := text.all Char.isWhitespace

/-- Number of entries of a comma-separated list text: none for a blank text,
otherwise one more than the number of commas. -/
def entryCount (text : List Char) : Nat :=
  if isBlank text then 0 else text.count ',' + 1

/-- Number of entries of the argument list of a built expression; none when
the expression has no argument list. -/
def argEntries (out : String) : Nat :=
  match argumentList out with
  | some text => entryCount text
  | none => 0

/-- The parameter definition with the two fields `name` and `in`. -/
def param (name kind : String) : Value :=
  Value.obj [("name", Value.str name), ("in", Value.str kind)]

instance (params : List Value) : Decidable (pathNamesAreStrings params) := by
  unfold pathNamesAreStrings; infer_instance

instance (s : String) : Decidable (braceFree s) := by
  unfold braceFree; infer_instance


/-! ## The run of `main` -/

/-- The constant `directory`. -/
def directory : String := "addons/com.google.agones"

/-- The variable `swagger_files`. -/
def swagger_files : List String := ["sdk", "alpha", "beta"]

/-- The call `strings.ToUpper`, modelled on ASCII text only: letters beyond
ASCII, which `strings.ToUpper` also maps, are left as they are. The run
applies it to the identifiers of `swagger_files`, which are ASCII. -/
def ToUpper (s : String) : String := ⟨s.data.map Char.toUpper⟩

/-- The word boundary test of `strings.Title`: ASCII letters, digits and the
underscore do not separate words, every other ASCII character does; beyond
ASCII only the Unicode spaces separate, which this model leaves out. -/
def isSeparator (c : Char) : Bool :=
  if c.val ≤ 127 then !(c.isAlphanum || c == '_') else false

/-- The mapping of `strings.Title`: a character that follows a separator is
upper-cased; the text starts behind a blank. -/
def titleFrom : Char → List Char → List Char
  | _, [] => []
  | prev, r :: rest => (if isSeparator prev then r.toUpper else r) :: titleFrom r rest

/-- The call `strings.Title`, modelled on ASCII text only (see `isSeparator`).
The run applies it to the identifiers of `swagger_files`, which are ASCII. -/
def Title (s : String) : String := ⟨titleFrom ' ' s.data⟩

/-- Name of the file generated for an identifier:
`fmt.Sprintf("%s/Agones%s.gd", directory, strings.Title(swagger_file))`. -/
def outputFile (swagger_file : String) : String :=
  directory ++ "/Agones" ++ Title swagger_file ++ ".gd"

/-- The header handed to the client template. -/
def header : String := "# This code is generated by go generate.\n# DO NOT EDIT BY HAND!"

/-- Lines of the log, by the statement that writes them. -/
inductive LogEvent where
  | ident (name : String) : LogEvent
  | parsing (key : String) : LogEvent
  | fatal (msg : String) : LogEvent
  | complete : LogEvent
  deriving DecidableEq

/-- The external collaborators of a run: the loaded descriptions, the two
template files as the template engine reads them, and the file creation. -/
structure Env where
  /-- The entries of `swagger["paths"]` of the description of an identifier, in
  the order in which `range` enumerates them. An unreadable or malformed
  document, or one without `paths`, gives no entry. -/
  paths : String → List (String × Value)
  /-- Parsing of `request.tpl`: an error, or the execution of the template on
  the context with `path` and `data`, giving the rendered text or an error. -/
  requestTpl : Except String (String → Value → Except String String)
  /-- Parsing of `template.tpl`: an error, or the execution of the template on
  `header` and `data`, giving the text written to the output and the error
  that stopped it, if any. -/
  clientTpl : Except String (String → String → String × Option String)
  /-- The error of `os.Create` on a file name, if any. -/
  createErr : String → Option String

/-- What a run acts on: the content of the files by name, the log, and the
contexts on which the request template has been executed. -/
structure World where
  files : String → Option String
  log : List LogEvent
  calls : List (String × Value)

/-- The world after `log.Fatalf`: the message is logged and the process exits. -/
def fatal (w : World) (msg : String) : World :=
  { w with log := w.log ++ [LogEvent.fatal msg] }

/-- The file `name` created or truncated, then holding `text`. -/
def writeFile (files : String → Option String) (name text : String) : String → Option String :=
  fun f => if f = name then some text else files f

/-- The loop `for key, value := range swagger["paths"]` on the accumulator
`requests`. A failed execution is fatal: the run ends in the world reached. -/
def renderLoop (exec : String → Value → Except String String) :
    List (String × Value) → String → World → Except World (String × World)
  | [], requests, w => Except.ok (requests, w)
  | (key, value) :: rest, requests, w =>
    let w1 := { w with calls := w.calls ++ [(key, value)] }
    match exec key value with
    | Except.error err => Except.error (fatal w1 ("Parsing `" ++ key ++ "` failed: " ++ err))
    | Except.ok text =>
      renderLoop exec rest (requests ++ text) { w1 with log := w1.log ++ [LogEvent.parsing key] }

/-- The body of the loop `for _, swagger_file := range swagger_files`; an
error is the world in which the process exited. -/
def processFile (env : Env) (w : World) (swagger_file : String) : Except World World :=
  let w0 := { w with log := w.log ++ [LogEvent.ident (ToUpper swagger_file)] }
  match env.requestTpl with
  | Except.error err => Except.error (fatal w0 ("request.tpl parsing failed: " ++ err))
  | Except.ok exec =>
    match renderLoop exec (env.paths swagger_file) "" w0 with
    | Except.error w1 => Except.error w1
    | Except.ok (requests, w1) =>
      match env.clientTpl with
      | Except.error err => Except.error (fatal w1 ("template.tpl parsing failed: " ++ err))
      | Except.ok assemble =>
        match env.createErr (outputFile swagger_file) with
        | some err => Except.error (fatal w1 ("Failed to create Agones.gd: " ++ err))
        | none =>
          let out := assemble header requests
          let w2 := { w1 with files := writeFile w1.files (outputFile swagger_file) out.1 }
          match out.2 with
          | some err => Except.error (fatal w2 ("Execution failed: " ++ err))
          | none => Except.ok w2

/-- The loop over the identifiers. -/
def runFiles (env : Env) : List String → World → Except World World
  | [], w => Except.ok w
  | swagger_file :: rest, w =>
    match processFile env w swagger_file with
    | Except.error w1 => Except.error w1
    | Except.ok w1 => runFiles env rest w1

/-- How a run ended, and the world it left. -/
structure Outcome where
  world : World
  completed : Bool

/-- The world in which a run starts: the files present, nothing logged. -/
def startWorld (files : String → Option String) : World := ⟨files, [], []⟩

/-- The function `main`, behind the creation of the output directory. -/
def main (env : Env) (files : String → Option String) : Outcome :=
  match runFiles env swagger_files (startWorld files) with
  | Except.error w => ⟨w, false⟩
  | Except.ok w => ⟨{ w with log := w.log ++ [LogEvent.complete] }, true⟩

/-- The identifiers announced in a log, in order. -/
def idents (log : List LogEvent) : List String :=
  log.filterMap (fun e => match e with
    | LogEvent.ident name => some name
    | _ => none)

/-- The texts concatenated in order; the empty text for no text. -/
def concatAll : List String → String
  | [] => ""
  | t :: rest => t ++ concatAll rest

/-- A request template that fails on the path `/bad` and renders a comment
line for every other path. -/
def demoRequest (key : String) (_ : Value) : Except String String :=
  if key = "/bad" then Except.error "no such field" else Except.ok ("# " ++ key ++ "\n")

/-- An environment in which every template parses, files can be created and
only the path `/bad`, served by the description `alpha`, fails to render. -/
def demoEnv : Env where
  paths := fun swagger_file =>
    if swagger_file = "alpha" then [("/v1/ok", Value.obj []), ("/bad", Value.null)]
    else [("/v1/health", Value.obj [("get", Value.obj [])])]
  requestTpl := Except.ok demoRequest
  clientTpl := Except.ok (fun head data => (head ++ "\n" ++ data, none))
  createErr := fun _ => none

/-! ## Lemmas on the scan of `strings.Replace` -/

theorem replaceFrom_skip (old new : List Char) (p r : List Char) :
    replaceFrom old new p.length (p ++ r) = replaceFrom old new 0 r := by
  induction p with
  | nil => rfl
  | cons c p ih =>
    show replaceFrom old new (p.length + 1) (c :: (p ++ r)) = _
    rw [replaceFrom]
    exact ih

theorem replaceFrom_hit (old new r : List Char) (hne : old ≠ []) :
    replaceFrom old new 0 (old ++ r) = new ++ replaceFrom old new 0 r := by
  cases old with
  | nil => exact absurd rfl hne
  | cons c o =>
    have h : (c :: o).isPrefixOf (c :: (o ++ r)) = true := by
      rw [List.isPrefixOf_iff_prefix]
      exact List.prefix_append (c :: o) r
    show replaceFrom (c :: o) new 0 (c :: (o ++ r)) = _
    rw [replaceFrom, if_pos h]
    simp only [List.length_cons, Nat.add_sub_cancel]
    rw [replaceFrom_skip]

theorem replaceFrom_miss (old new : List Char) (c : Char) (t : List Char)
    (h : ¬ old <+: c :: t) :
    replaceFrom old new 0 (c :: t) = c :: replaceFrom old new 0 t := by
  have h2 : ¬ (old.isPrefixOf (c :: t) = true) := by
    rw [List.isPrefixOf_iff_prefix]; exact h
  rw [replaceFrom, if_neg h2]

theorem replaceFrom_nil (old new : List Char) (k : Nat) : replaceFrom old new k [] = [] := by
  cases k <;> rfl

/-- Induction along the scan of `replaceFrom`. -/
theorem scan_induction (old : List Char) (hne : old ≠ []) (P : List Char → Prop)
    (hnil : P [])
    (hhit : ∀ r, P r → P (old ++ r))
    (hmiss : ∀ c t, ¬ old <+: c :: t → P t → P (c :: t)) : ∀ s, P s := by
  suffices H : ∀ n (s : List Char), s.length = n → P s from fun s => H s.length s rfl
  intro n
  induction n using Nat.strong_induction_on with
  | _ n ih =>
    intro s hn
    cases s with
    | nil => exact hnil
    | cons c t =>
      by_cases h : old <+: c :: t
      · obtain ⟨r, hr⟩ := h
        rw [← hr]
        apply hhit
        refine ih r.length ?_ r rfl
        have : (old ++ r).length = (c :: t).length := by rw [hr]
        rw [List.length_append] at this
        have hpos : 0 < old.length := List.length_pos.mpr hne
        omega
      · apply hmiss c t h
        refine ih t.length ?_ t rfl
        simp at hn; omega

theorem replaceFrom_pass (h : Char) (o new a b : List Char) (ha : h ∉ a) :
    replaceFrom (h :: o) new 0 (a ++ b) = a ++ replaceFrom (h :: o) new 0 b := by
  induction a with
  | nil => rfl
  | cons x a ih =>
    have hx : h ≠ x := fun e => ha (e ▸ List.mem_cons_self _ _)
    have ha2 : h ∉ a := fun m => ha (List.mem_cons_of_mem _ m)
    have hno : ¬ (h :: o) <+: x :: (a ++ b) := by
      intro hp
      exact hx (List.cons_prefix_cons.mp hp).1
    show replaceFrom (h :: o) new 0 (x :: (a ++ b)) = x :: (a ++ _)
    rw [replaceFrom_miss _ _ _ _ hno, ih ha2]

theorem replaceFrom_clean (h : Char) (o new a : List Char) (ha : h ∉ a) :
    replaceFrom (h :: o) new 0 a = a := by
  have := replaceFrom_pass h o new a [] ha
  simpa [replaceFrom_nil] using this

theorem closer_inside (e : Char) (t : List Char) (he : e ∉ t) :
    ∀ (o w : List Char), o ++ [e] <+: w ++ t → o ++ [e] <+: w := by
  intro o w
  induction w generalizing o with
  | nil =>
    intro hp
    exfalso
    apply he
    have hmem : e ∈ o ++ [e] := by simp
    simpa using hp.subset hmem
  | cons x w ih =>
    intro hp
    cases o with
    | nil =>
      have hx : e = x := (List.cons_prefix_cons.mp hp).1
      subst hx
      exact List.cons_prefix_cons.mpr ⟨rfl, List.nil_prefix⟩
    | cons y o =>
      have h1 := List.cons_prefix_cons.mp hp
      exact List.cons_prefix_cons.mpr ⟨h1.1, ih o h1.2⟩

theorem replaceFrom_split (e : Char) (o new t : List Char) (he : e ∉ t) (w : List Char) :
    replaceFrom (o ++ [e]) new 0 (w ++ t)
      = replaceFrom (o ++ [e]) new 0 w ++ replaceFrom (o ++ [e]) new 0 t := by
  have hne : o ++ [e] ≠ [] := by simp
  refine scan_induction (o ++ [e]) hne
    (fun w => replaceFrom (o ++ [e]) new 0 (w ++ t)
      = replaceFrom (o ++ [e]) new 0 w ++ replaceFrom (o ++ [e]) new 0 t) ?_ ?_ ?_ w
  · simp [replaceFrom_nil]
  · intro r ih
    show replaceFrom (o ++ [e]) new 0 ((o ++ [e]) ++ r ++ t) = _
    rw [List.append_assoc (o ++ [e]) r t, replaceFrom_hit _ _ _ hne, replaceFrom_hit _ _ _ hne,
      ih, List.append_assoc]
  · intro c w hno ih
    have hno2 : ¬ (o ++ [e]) <+: c :: (w ++ t) := fun hp =>
      hno (closer_inside e t he o (c :: w) hp)
    show replaceFrom (o ++ [e]) new 0 (c :: (w ++ t)) = _
    rw [replaceFrom_miss _ _ _ _ hno2, replaceFrom_miss _ _ _ _ hno, ih]
    rfl

/-- Replacing a placeholder inside a text framed by brace-free texts only
touches the framed part. -/
theorem replaceFrom_framed (n new a w b : List Char)
    (ha : '\x7b' ∉ a) (hb1 : '\x7b' ∉ b) (hb2 : '\x7d' ∉ b) :
    replaceFrom (pat n) new 0 (a ++ w ++ b) = a ++ replaceFrom (pat n) new 0 w ++ b := by
  rw [List.append_assoc, show pat n = '\x7b' :: (n ++ ['\x7d']) from rfl,
    replaceFrom_pass _ _ _ _ _ ha]
  rw [show '\x7b' :: (n ++ ['\x7d']) = ('\x7b' :: n) ++ ['\x7d'] from rfl,
    replaceFrom_split _ _ _ _ hb2]
  rw [show ('\x7b' :: n) ++ ['\x7d'] = '\x7b' :: (n ++ ['\x7d']) from rfl,
    replaceFrom_clean _ _ _ _ hb1, List.append_assoc]

/-! ## The loop state of `ParseUrlParams` -/

theorem placeholder_data (n : String) : (placeholder n).data = pat n.data := by
  simp [placeholder, pat, String.data_append]

theorem pat_ne_nil (n : List Char) : pat n ≠ [] := by simp [pat]

theorem Replace_placeholder_data (s n new : String) :
    (Replace s (placeholder n) new).data = replaceFrom (pat n.data) new.data 0 s.data := by
  simp [Replace, replaceAll, placeholder_data, pat_ne_nil]

theorem joinArgs_snoc (args : List String) (n : String) (h : args ≠ []) :
    joinArgs (args ++ [n]) = joinArgs args ++ ", " ++ n := by
  induction args with
  | nil => exact absurd rfl h
  | cons a rest ih =>
    cases rest with
    | nil => simp [joinArgs]
    | cons b rest =>
      have := ih (by simp)
      simp only [List.cons_append] at this ⊢
      simp only [joinArgs, this, String.append_assoc]

theorem argText_snoc (args : List String) (n : String) :
    argText (args ++ [n])
      = if args.length = 0 then argText args ++ "% [" ++ n else argText args ++ ", " ++ n := by
  cases args with
  | nil => simp [argText, joinArgs]
  | cons a rest =>
    have := joinArgs_snoc (a :: rest) n (by simp)
    simp only [List.cons_append] at this
    simp [argText, this, String.append_assoc]

theorem joinArgs_clean (c : Char) (hc : c ≠ ',' ∧ c ≠ ' ') (args : List String)
    (h : ∀ a ∈ args, c ∉ a.data) : c ∉ (joinArgs args).data := by
  induction args with
  | nil => simp [joinArgs]
  | cons a rest ih =>
    cases rest with
    | nil => simpa [joinArgs] using h
    | cons b rest =>
      have h1 : c ∉ a.data := h a (List.mem_cons_self _ _)
      have h2 := ih (fun x hx => h x (List.mem_cons_of_mem _ hx))
      simp only [joinArgs, String.data_append, List.mem_append, not_or]
      refine ⟨⟨h1, ?_⟩, h2⟩
      simp [hc.1, hc.2]

theorem argText_clean (c : Char) (hc : c ≠ ',' ∧ c ≠ ' ' ∧ c ≠ '%' ∧ c ≠ '[') (args : List String)
    (h : ∀ a ∈ args, c ∉ a.data) : c ∉ (argText args).data := by
  cases args with
  | nil => simp [argText]
  | cons a rest =>
    have h2 := joinArgs_clean c ⟨hc.1, hc.2.1⟩ (a :: rest) h
    simp only [argText, String.data_append, List.mem_append, not_or]
    refine ⟨?_, h2⟩
    simp [hc.1, hc.2.1, hc.2.2.1, hc.2.2.2]

/-- Replacing a placeholder in the loop state only touches the URL inside the
quotes, provided the arguments appended so far are brace-free. -/
theorem Replace_state (w n : String) (args : List String)
    (hargs : ∀ a ∈ args, braceFree a) :
    Replace ("\"" ++ w ++ "\"" ++ argText args) (placeholder n) "%s"
      = "\"" ++ Replace w (placeholder n) "%s" ++ "\"" ++ argText args := by
  apply String.ext
  rw [Replace_placeholder_data]
  simp only [String.data_append, Replace_placeholder_data]
  have h1 : '\x7b' ∉ (argText args).data :=
    argText_clean _ (by decide) args (fun a ha => (hargs a ha).1)
  have h2 : '\x7d' ∉ (argText args).data :=
    argText_clean _ (by decide) args (fun a ha => (hargs a ha).2)
  have := replaceFrom_framed n.data ['%', 's'] ['\x22'] w.data
    (['\x22'] ++ (argText args).data) (by decide) (by simp [h1]) (by simp [h2])
  simpa [List.append_assoc] using this

theorem urlStep_other (st : String × Nat) (key : Value) (h : isPathParam key = false) :
    urlStep st key = some st := by
  unfold isPathParam at h
  simp [urlStep, h]

theorem urlStep_named (url : String) (k : Nat) (key : Value) (n : String)
    (h : isPathParam key = true) (hn : paramName key = some n) :
    urlStep (url, k) key
      = some (if k = 0 then Replace url (placeholder n) "%s" ++ "% [" ++ n
              else Replace url (placeholder n) "%s" ++ ", " ++ n, k + 1) := by
  unfold isPathParam at h
  unfold paramName at hn
  have hl : (asMap key).lookup "name" = some (Value.str n) := by
    split at hn
    · rename_i name heq
      simp only [Option.some.injEq] at hn
      rw [heq, hn]
    · exact absurd hn (by simp)
  simp only [urlStep, h, if_true, hl, placeholder]

theorem urlStep_unnamed (st : String × Nat) (key : Value)
    (h : isPathParam key = true) (hn : paramName key = none) :
    urlStep st key = none := by
  unfold isPathParam at h
  unfold paramName at hn
  have hl : ∀ name, (asMap key).lookup "name" ≠ some (Value.str name) := by
    intro name heq
    rw [heq] at hn
    exact absurd hn (by simp)
  cases hk : (asMap key).lookup "name" with
  | none => simp [urlStep, h, hk]
  | some v =>
    cases v with
    | str name => exact absurd hk (hl name)
    | _ => simp [urlStep, h, hk]

theorem pathNames_cons_other (key : Value) (rest : List Value) (h : isPathParam key = false) :
    pathNames (key :: rest) = pathNames rest := by
  simp [pathNames, List.filter_cons, h]

theorem pathNames_cons_named (key : Value) (rest : List Value) (n : String)
    (h : isPathParam key = true) (hn : paramName key = some n) :
    pathNames (key :: rest) = n :: pathNames rest := by
  simp [pathNames, List.filter_cons, h, List.filterMap_cons, hn]

theorem pathNames_length (params : List Value) (hstr : pathNamesAreStrings params) :
    (pathNames params).length = (params.filter isPathParam).length := by
  induction params with
  | nil => rfl
  | cons key rest ih =>
    have hrest : pathNamesAreStrings rest := fun k hk => hstr k (List.mem_cons_of_mem _ hk)
    cases h : isPathParam key with
    | false => rw [pathNames_cons_other _ _ h, List.filter_cons_of_neg (by simp [h]), ih hrest]
    | true =>
      have h1 := hstr key (List.mem_cons_self _ _) h
      obtain ⟨n, hn⟩ := Option.isSome_iff_exists.mp h1
      rw [pathNames_cons_named _ _ n h hn, List.filter_cons_of_pos (by simp [h])]
      simp [ih hrest]

/-- The loop of `ParseUrlParams` in closed form. -/
theorem urlLoop_closed (params : List Value) :
    ∀ (w : String) (args : List String), pathNamesAreStrings params →
      (∀ a ∈ args, braceFree a) → (∀ n ∈ pathNames params, braceFree n) →
      urlLoop params ("\"" ++ w ++ "\"" ++ argText args, args.length)
        = some ("\"" ++ substituted w (pathNames params) ++ "\""
                  ++ argText (args ++ pathNames params),
                (args ++ pathNames params).length) := by
  induction params with
  | nil => intro w args _ _ _; simp [urlLoop, pathNames, substituted]
  | cons key rest ih =>
    intro w args hstr hargs hnames
    have hrest : pathNamesAreStrings rest := fun k hk => hstr k (List.mem_cons_of_mem _ hk)
    cases h : isPathParam key with
    | false =>
      rw [pathNames_cons_other _ _ h] at hnames ⊢
      rw [urlLoop, urlStep_other _ _ h]
      exact ih w args hrest hargs hnames
    | true =>
      have h1 := hstr key (List.mem_cons_self _ _) h
      obtain ⟨n, hn⟩ := Option.isSome_iff_exists.mp h1
      rw [pathNames_cons_named _ _ n h hn] at hnames ⊢
      have hnclean : braceFree n := hnames n (List.mem_cons_self _ _)
      have hargs2 : ∀ a ∈ args ++ [n], braceFree a := by
        intro a ha
        rcases List.mem_append.mp ha with ha | ha
        · exact hargs a ha
        · rw [List.mem_singleton.mp ha]; exact hnclean
      have hstep : urlStep ("\"" ++ w ++ "\"" ++ argText args, args.length) key
          = some ("\"" ++ Replace w (placeholder n) "%s" ++ "\"" ++ argText (args ++ [n]),
                  (args ++ [n]).length) := by
        rw [urlStep_named _ _ _ n h hn, Replace_state w n args hargs, argText_snoc]
        by_cases hz : args.length = 0
        · simp [hz, String.append_assoc]
        · simp [hz, String.append_assoc]
      rw [urlLoop, hstep]
      have := ih (Replace w (placeholder n) "%s") (args ++ [n]) hrest hargs2
        (fun m hm => hnames m (List.mem_cons_of_mem _ hm))
      simpa [substituted, List.append_assoc] using this

/-- The output of `ParseUrlParams` in closed form, for string names without braces. -/
theorem ParseUrlParams_closed (u : String) (params : List Value)
    (hstr : pathNamesAreStrings params) (hnames : ∀ n ∈ pathNames params, braceFree n) :
    ParseUrlParams u params
      = some ("(" ++ (if (pathNames params).length > 0
                then "\"" ++ substituted u (pathNames params) ++ "\""
                      ++ argText (pathNames params) ++ "]"
                else "\"" ++ substituted u (pathNames params) ++ "\""
                      ++ argText (pathNames params)) ++ ")") := by
  have := urlLoop_closed params u [] hstr (by simp) hnames
  have h0 : argText [] = "" := rfl
  simp only [h0, String.append_empty, List.length_nil, List.nil_append] at this
  simp only [ParseUrlParams, this]

/-! ## The type mapper, the reference extractor and the plain cases of the URL builder -/

theorem urlLoop_filter (params : List Value) :
    ∀ st, urlLoop (params.filter isPathParam) st = urlLoop params st := by
  induction params with
  | nil => intro st; rfl
  | cons key rest ih =>
    intro st
    cases h : isPathParam key with
    | false =>
      rw [List.filter_cons_of_neg (by simp [h]), ih st]
      simp only [urlLoop, urlStep_other _ _ h]
    | true =>
      rw [List.filter_cons_of_pos (by simp [h])]
      simp only [urlLoop]
      cases urlStep st key with
      | none => rfl
      | some st1 => exact ih st1

theorem urlLoop_total (params : List Value) :
    ∀ st, pathNamesAreStrings params → ∃ st1, urlLoop params st = some st1 := by
  induction params with
  | nil => intro st _; exact ⟨st, rfl⟩
  | cons key rest ih =>
    intro st hstr
    have hrest : pathNamesAreStrings rest := fun k hk => hstr k (List.mem_cons_of_mem _ hk)
    cases h : isPathParam key with
    | false =>
      simp only [urlLoop, urlStep_other _ _ h]
      exact ih st hrest
    | true =>
      have h1 := hstr key (List.mem_cons_self _ _) h
      obtain ⟨n, hn⟩ := Option.isSome_iff_exists.mp h1
      obtain ⟨url, k⟩ := st
      simp only [urlLoop, urlStep_named _ _ _ n h hn]
      exact ih _ hrest

theorem urlLoop_no_path (params : List Value) (h : ∀ key ∈ params, isPathParam key = false) :
    ∀ st, urlLoop params st = some st := by
  induction params with
  | nil => intro st; rfl
  | cons key rest ih =>
    intro st
    simp only [urlLoop, urlStep_other _ _ (h key (List.mem_cons_self _ _))]
    exact ih (fun k hk => h k (List.mem_cons_of_mem _ hk)) st

/-- C1: `ToGodotType` is a total function on strings that maps `string`,
`integer`, `number` and `boolean` to `String`, `int`, `float` and `bool`, and
every other string, the empty string and the differently-cased `String`
included, to `Object`. -/
theorem ToGodotType_table :
    ToGodotType "string" = "String" ∧ ToGodotType "integer" = "int" ∧
    ToGodotType "number" = "float" ∧ ToGodotType "boolean" = "bool" ∧
    ToGodotType "" = "Object" ∧ ToGodotType "String" = "Object" ∧
    ∀ v : String, v ≠ "string" → v ≠ "integer" → v ≠ "number" → v ≠ "boolean" →
      ToGodotType v = "Object" := by
  refine ⟨by decide, by decide, by decide, by decide, by decide, by decide, ?_⟩
  intro v h1 h2 h3 h4
  unfold ToGodotType
  split
  · exact absurd rfl h1
  · exact absurd rfl h2
  · exact absurd rfl h3
  · exact absurd rfl h4
  · rfl

/-- Witness of C1: the compound type name `array` falls back to `Object`. -/
theorem ToGodotType_table_witness : ToGodotType "array" = "Object" :=
  ToGodotType_table.2.2.2.2.2.2 "array" (by decide) (by decide) (by decide) (by decide)

/-- C5: when the schema mapping holds a string `v` under `$ref`, `GetSchemRef`
returns exactly `v`; when the mapping has no key `$ref`, it returns the empty
string. -/
theorem GetSchemRef_spec (m : GoMap) :
    (∀ v : String, m.lookup "$ref" = some (Value.str v) → GetSchemRef m = some v) ∧
    (m.lookup "$ref" = none → GetSchemRef m = some "") := by
  constructor
  · intro v hv
    simp [GetSchemRef, hv]
  · intro hv
    simp [GetSchemRef, hv]

/-- Witness of C5: `{"$ref": "#/definitions/Foo"}` gives `#/definitions/Foo`,
and the empty mapping gives the empty string. -/
theorem GetSchemRef_spec_witness :
    GetSchemRef [("$ref", Value.str "#/definitions/Foo")] = some "#/definitions/Foo" ∧
    GetSchemRef [] = some "" :=
  ⟨(GetSchemRef_spec [("$ref", Value.str "#/definitions/Foo")]).1 "#/definitions/Foo"
      rfl,
   (GetSchemRef_spec []).2 rfl⟩

/-- C9, as the code has it: `GetSchemRef` returns a string exactly when the
key `$ref` is absent or holds a string: the empty string when the key is
absent, the string itself, unchanged, when it holds one; for a value of any
other type under `$ref` the type assertion fails and nothing is returned. -/
theorem GetSchemRef_returns_iff (m : GoMap) :
    ((∃ s, GetSchemRef m = some s) ↔
      (m.lookup "$ref" = none ∨ ∃ v : String, m.lookup "$ref" = some (Value.str v))) ∧
    (∀ v : String, m.lookup "$ref" = some (Value.str v) → GetSchemRef m = some v) ∧
    (m.lookup "$ref" = none → GetSchemRef m = some "") ∧
    (∀ val : Value, m.lookup "$ref" = some val → (∀ v : String, val ≠ Value.str v) →
      GetSchemRef m = none) := by
  unfold GetSchemRef
  cases h : m.lookup "$ref" with
  | none => simp
  | some val => cases val <;> simp

/-- Witness of C9 as amended: a string under `$ref` comes back unchanged, the
mapping without `$ref` gives the empty string, a number under `$ref` gives
no result. -/
theorem GetSchemRef_returns_iff_witness :
    GetSchemRef [("$ref", Value.str "#/definitions/Foo")] = some "#/definitions/Foo" ∧
    GetSchemRef [("other", Value.null)] = some "" ∧
    GetSchemRef [("$ref", Value.num 0)] = none :=
  ⟨(GetSchemRef_returns_iff [("$ref", Value.str "#/definitions/Foo")]).2.1
      "#/definitions/Foo" rfl,
   (GetSchemRef_returns_iff [("other", Value.null)]).2.2.1 rfl,
   (GetSchemRef_returns_iff [("$ref", Value.num 0)]).2.2.2 (Value.num 0) rfl
      (fun _ h => Value.noConfusion h)⟩

/-- C9 fails as stated: with a number, a boolean, null, a list or a nested
mapping under `$ref`, `GetSchemRef` does not return. -/
theorem GetSchemRef_non_string_fails :
    GetSchemRef [("$ref", Value.num 0)] = none ∧
    GetSchemRef [("$ref", Value.bool true)] = none ∧
    GetSchemRef [("$ref", Value.null)] = none ∧
    GetSchemRef [("$ref", Value.arr [])] = none ∧
    GetSchemRef [("$ref", Value.obj [])] = none := by
  refine ⟨?_, ?_, ?_, ?_, ?_⟩ <;> rfl

/-- C3: when no parameter has `in == "path"`, `ParseUrlParams` returns the
quoted URL in parentheses, unchanged and with nothing appended. -/
theorem ParseUrlParams_no_path (u : String) (params : List Value)
    (h : ∀ key ∈ params, isPathParam key = false) :
    ParseUrlParams u params = some ("(\"" ++ u ++ "\")") := by
  simp only [ParseUrlParams, urlLoop_no_path params h]
  apply congrArg some
  apply String.ext
  simp [String.data_append]

/-- Witness of C3: the empty parameter list, and a list holding only a body
parameter. -/
theorem ParseUrlParams_no_path_witness :
    ParseUrlParams "/v1/health" [] = some "(\"/v1/health\")" ∧
    ParseUrlParams "/v1/health" [param "body" "body", Value.null]
      = some "(\"/v1/health\")" :=
  ⟨ParseUrlParams_no_path "/v1/health" [] (by decide),
   ParseUrlParams_no_path "/v1/health" [param "body" "body", Value.null] (by decide)⟩

/-- C4: parameters that are not path parameters have no effect: when the path
parameters have string names, `ParseUrlParams` returns, and returns the same
text as on the list with every parameter whose `in` is not `path` removed. -/
theorem ParseUrlParams_ignores_others (u : String) (params : List Value)
    (hstr : pathNamesAreStrings params) :
    ∃ out, ParseUrlParams u params = some out ∧
      ParseUrlParams u (params.filter isPathParam) = some out := by
  obtain ⟨st1, h1⟩ := urlLoop_total params ("\"" ++ u ++ "\"", 0) hstr
  obtain ⟨url1, k⟩ := st1
  refine ⟨"(" ++ (if k > 0 then url1 ++ "]" else url1) ++ ")", ?_, ?_⟩
  · simp only [ParseUrlParams, h1]
  · simp only [ParseUrlParams, urlLoop_filter, h1]

/-- Witness of C4: a body parameter named `id` leaves the token `{id}` of the
URL in place and adds no argument. -/
theorem ParseUrlParams_ignores_others_witness :
    ParseUrlParams "/v1/x/\x7bid\x7d" [param "id" "body"] = some "(\"/v1/x/\x7bid\x7d\")" ∧
    ParseUrlParams "/v1/x/\x7bid\x7d" ([param "id" "body"].filter isPathParam)
      = some "(\"/v1/x/\x7bid\x7d\")" := by
  obtain ⟨out, h1, h2⟩ :=
    ParseUrlParams_ignores_others "/v1/x/\x7bid\x7d" [param "id" "body"] (by decide)
  have e : ParseUrlParams "/v1/x/\x7bid\x7d" [param "id" "body"]
      = some "(\"/v1/x/\x7bid\x7d\")" := by decide
  rw [h1] at e
  rw [h2, h1, e]
  exact ⟨rfl, rfl⟩

/-! ## Placeholders of different names do not overlap -/

theorem opener_outside (h : Char) (p a b : List Char) (ha : h ∉ a)
    (hin : (h :: p) <:+: a ++ b) : (h :: p) <:+: b := by
  induction a with
  | nil => exact hin
  | cons x a ih =>
    have hx : h ≠ x := fun e => ha (e ▸ List.mem_cons_self _ _)
    have ha2 : h ∉ a := fun m => ha (List.mem_cons_of_mem _ m)
    rcases List.infix_cons_iff.mp hin with hp | hi
    · exact absurd (List.cons_prefix_cons.mp hp).1 hx
    · exact ih ha2 hi

theorem closer_unique (e : Char) (n : List Char) :
    ∀ (m r : List Char), e ∉ n → e ∉ m → n ++ [e] <+: m ++ e :: r → n = m := by
  induction n with
  | nil =>
    intro m r _ hm hp
    cases m with
    | nil => rfl
    | cons y m =>
      have : e = y := (List.cons_prefix_cons.mp hp).1
      exact absurd (this ▸ List.mem_cons_self _ _) hm
  | cons x n ih =>
    intro m r hn hm hp
    cases m with
    | nil =>
      have : x = e := (List.cons_prefix_cons.mp hp).1
      exact absurd (this ▸ List.mem_cons_self _ _) hn
    | cons y m =>
      have h1 := List.cons_prefix_cons.mp hp
      have hn2 : e ∉ n := fun k => hn (List.mem_cons_of_mem _ k)
      have hm2 : e ∉ m := fun k => hm (List.mem_cons_of_mem _ k)
      rw [h1.1, ih m r hn2 hm2 h1.2]

theorem pat_no_overlap (n m r : List Char)
    (hn : '\x7b' ∉ n ∧ '\x7d' ∉ n) (hm : '\x7b' ∉ m ∧ '\x7d' ∉ m) (hne : m ≠ n) :
    ¬ pat n <+: pat m ++ r := by
  intro hp
  have h1 : n ++ ['\x7d'] <+: m ++ '\x7d' :: r := by
    have := (List.cons_prefix_cons.mp (show '\x7b' :: (n ++ ['\x7d'])
      <+: '\x7b' :: (m ++ '\x7d' :: r) by simpa [pat] using hp)).2
    exact this
  exact hne (closer_unique '\x7d' n m r hn.2 hm.2 h1).symm

theorem pat_after (n m r : List Char)
    (hn : '\x7b' ∉ n ∧ '\x7d' ∉ n) (hm : '\x7b' ∉ m ∧ '\x7d' ∉ m) (hne : m ≠ n)
    (hin : pat n <:+: pat m ++ r) : pat n <:+: r := by
  have hin2 : pat n <:+: '\x7b' :: ((m ++ ['\x7d']) ++ r) := by simpa [pat] using hin
  rcases List.infix_cons_iff.mp hin2 with hp | hi
  · exact absurd (by simpa [pat] using hp) (pat_no_overlap n m r hn hm hne)
  · refine opener_outside '\x7b' (n ++ ['\x7d']) (m ++ ['\x7d']) r ?_ hi
    simp [hm.1]

/-- Replacing the placeholder of another name keeps every occurrence of the
placeholder of `n`. -/
theorem pat_survives (n m new : List Char)
    (hn : '\x7b' ∉ n ∧ '\x7d' ∉ n) (hm : '\x7b' ∉ m ∧ '\x7d' ∉ m) (hne : m ≠ n) (s : List Char) :
    pat n <:+: s → pat n <:+: replaceFrom (pat m) new 0 s := by
  refine scan_induction (pat m) (pat_ne_nil m)
    (fun s => pat n <:+: s → pat n <:+: replaceFrom (pat m) new 0 s) ?_ ?_ ?_ s
  · intro h
    exact absurd (List.infix_nil.mp h) (pat_ne_nil n)
  · intro r ih hin
    rw [replaceFrom_hit _ _ _ (pat_ne_nil m)]
    obtain ⟨a, b, hab⟩ := ih (pat_after n m r hn hm hne hin)
    exact ⟨new ++ a, b, by simp [← hab, List.append_assoc]⟩
  · intro c t hno ih hin
    rw [replaceFrom_miss _ _ _ _ hno]
    rcases List.infix_cons_iff.mp hin with hp | hi
    · obtain ⟨b, hb⟩ := hp
      have hc : c = '\x7b' := by
        have := congrArg List.head? hb
        simpa [pat] using this.symm
      have ht : t = (n ++ ['\x7d']) ++ b := by
        have := congrArg List.tail hb
        simpa [pat] using this.symm
      subst hc
      rw [ht, show pat m = '\x7b' :: (m ++ ['\x7d']) from rfl,
        replaceFrom_pass _ _ _ _ _ (by simp [hn.1] : '\x7b' ∉ n ++ ['\x7d'])]
      exact ⟨[], replaceFrom ('\x7b' :: (m ++ ['\x7d'])) new 0 b, by simp [pat]⟩
    · exact List.infix_cons (ih hi)

theorem substituted_survives (n : String) (hn : braceFree n) (names : List String) :
    ∀ u : String, (∀ m ∈ names, braceFree m ∧ m ≠ n) →
      occursIn (placeholder n) u → occursIn (placeholder n) (substituted u names) := by
  induction names with
  | nil => intro u _ h; exact h
  | cons m rest ih =>
    intro u hall hocc
    have hm := hall m (List.mem_cons_self _ _)
    have hne : m.data ≠ n.data := fun e => hm.2 (String.ext e)
    have step : occursIn (placeholder n) (Replace u (placeholder m) "%s") := by
      unfold occursIn at hocc ⊢
      rw [placeholder_data] at hocc ⊢
      rw [Replace_placeholder_data]
      exact pat_survives n.data m.data _ hn hm.1 hne u.data hocc
    exact ih _ (fun k hk => hall k (List.mem_cons_of_mem _ hk)) step

/-! ## Counting format markers -/

theorem countAt_pass (h : Char) (p a b : List Char) (ha : h ∉ a) :
    countAt (h :: p) (a ++ b) = countAt (h :: p) b := by
  induction a with
  | nil => rfl
  | cons x a ih =>
    have hx : h ≠ x := fun e => ha (e ▸ List.mem_cons_self _ _)
    have ha2 : h ∉ a := fun m => ha (List.mem_cons_of_mem _ m)
    have hno : ¬ ((h :: p).isPrefixOf (x :: (a ++ b)) = true) := by
      rw [List.isPrefixOf_iff_prefix]
      intro hp
      exact hx (List.cons_prefix_cons.mp hp).1
    show countAt (h :: p) (x :: (a ++ b)) = _
    rw [countAt, if_neg hno, ih ha2, Nat.zero_add]

theorem countAt_clean (h : Char) (p a : List Char) (ha : h ∉ a) :
    countAt (h :: p) a = 0 := by
  have := countAt_pass h p a [] ha
  simpa [countAt] using this

theorem countAt_pair_split (p q c : Char) (hc : c ≠ q) (b : List Char) (a : List Char) :
    countAt [p, q] (a ++ c :: b) = countAt [p, q] a + countAt [p, q] (c :: b) := by
  induction a with
  | nil => simp [countAt]
  | cons x a ih =>
    show countAt [p, q] (x :: (a ++ c :: b)) = countAt [p, q] (x :: a) + _
    rw [countAt, countAt, ih]
    have hsame : ([p, q].isPrefixOf (x :: (a ++ c :: b))) = ([p, q].isPrefixOf (x :: a)) := by
      cases a with
      | nil =>
        have hqc : (q == c) = false := by simpa using fun e : q = c => hc e.symm
        simp [List.isPrefixOf, hqc]
      | cons y a => simp [List.isPrefixOf]
    rw [hsame]
    omega

theorem head_after_replace (n nw : List Char) (w : List Char) :
    ∀ t : List Char, '\x7b' ∉ w → '%' ∉ w →
      (w <+: replaceFrom (pat n) ('%' :: nw) 0 t ↔ w <+: t) := by
  induction w with
  | nil => intro t _ _; simp
  | cons x w ih =>
    intro t h1 h2
    have hx1 : x ≠ '\x7b' := fun e => h1 (e ▸ List.mem_cons_self _ _)
    have hx2 : x ≠ '%' := fun e => h2 (e ▸ List.mem_cons_self _ _)
    have hw1 : '\x7b' ∉ w := fun k => h1 (List.mem_cons_of_mem _ k)
    have hw2 : '%' ∉ w := fun k => h2 (List.mem_cons_of_mem _ k)
    cases t with
    | nil => simp [replaceFrom_nil]
    | cons d t =>
      by_cases hit : pat n <+: d :: t
      · obtain ⟨r, hr⟩ := hit
        have hd : d = '\x7b' := by
          have := congrArg List.head? hr
          simpa [pat] using this.symm
        rw [← hr, replaceFrom_hit _ _ _ (pat_ne_nil n), hr, hd]
        constructor
        · intro hp
          exact absurd (List.cons_prefix_cons.mp hp).1 hx2
        · intro hp
          exact absurd (List.cons_prefix_cons.mp hp).1 hx1
      · rw [replaceFrom_miss _ _ _ _ hit, List.cons_prefix_cons, List.cons_prefix_cons,
          ih t hw1 hw2]

theorem hit_congr (p : Char) (w : List Char) (c : Char) (t1 t2 : List Char)
    (h : w <+: t1 ↔ w <+: t2) :
    ((p :: w).isPrefixOf (c :: t1)) = ((p :: w).isPrefixOf (c :: t2)) := by
  rw [Bool.eq_iff_iff, List.isPrefixOf_iff_prefix, List.isPrefixOf_iff_prefix,
    List.cons_prefix_cons, List.cons_prefix_cons, h]

/-- Each replaced placeholder adds one format marker and disturbs no other. -/
theorem marker_count_step (n : List Char)
    (hn : '\x7b' ∉ n ∧ '\x7d' ∉ n) (hp : '%' ∉ n) (s : List Char) :
    countAt ['%', 's'] (replaceFrom (pat n) ['%', 's'] 0 s)
      = countAt ['%', 's'] s + countAt (pat n) s := by
  refine scan_induction (pat n) (pat_ne_nil n)
    (fun s => countAt ['%', 's'] (replaceFrom (pat n) ['%', 's'] 0 s)
      = countAt ['%', 's'] s + countAt (pat n) s) ?_ ?_ ?_ s
  · simp [replaceFrom_nil, countAt, pat]
  · intro r ih
    rw [replaceFrom_hit _ _ _ (pat_ne_nil n)]
    have e1 : countAt ['%', 's'] (['%', 's'] ++ replaceFrom (pat n) ['%', 's'] 0 r)
        = 1 + countAt ['%', 's'] (replaceFrom (pat n) ['%', 's'] 0 r) := by
      simp [countAt, List.isPrefixOf]
    have e2 : countAt ['%', 's'] (pat n ++ r) = countAt ['%', 's'] r :=
      countAt_pass '%' ['s'] (pat n) r (by simp [pat, hp])
    have e3 : countAt (pat n) (pat n ++ r) = 1 + countAt (pat n) r := by
      have hpre : (pat n).isPrefixOf ('\x7b' :: ((n ++ ['\x7d']) ++ r)) = true := by
        rw [List.isPrefixOf_iff_prefix]
        exact ⟨r, by simp [pat]⟩
      show countAt (pat n) ('\x7b' :: ((n ++ ['\x7d']) ++ r)) = _
      rw [countAt, if_pos hpre]
      rw [show pat n = '\x7b' :: (n ++ ['\x7d']) from rfl,
        countAt_pass '\x7b' (n ++ ['\x7d']) (n ++ ['\x7d']) r (by simp [hn.1])]
    rw [e1, e2, e3, ih]
    omega
  · intro c t hno ih
    rw [replaceFrom_miss _ _ _ _ hno]
    have hno2 : ¬ ((pat n).isPrefixOf (c :: t) = true) := by
      rw [List.isPrefixOf_iff_prefix]; exact hno
    have hsame := hit_congr '%' ['s'] c (replaceFrom (pat n) ['%', 's'] 0 t) t
      (head_after_replace n ['s'] ['s'] t (by decide) (by decide))
    rw [countAt, countAt, countAt, if_neg hno2, hsame, ih]
    omega

/-- Replacing the placeholder of `n` keeps the number of occurrences of the
placeholder of another name `m`. -/
theorem other_count_step (n m : List Char)
    (hn : '\x7b' ∉ n ∧ '\x7d' ∉ n) (hm : '\x7b' ∉ m ∧ '\x7d' ∉ m) (hp : '%' ∉ m)
    (hne : n ≠ m) (s : List Char) :
    countAt (pat m) (replaceFrom (pat n) ['%', 's'] 0 s) = countAt (pat m) s := by
  refine scan_induction (pat n) (pat_ne_nil n)
    (fun s => countAt (pat m) (replaceFrom (pat n) ['%', 's'] 0 s) = countAt (pat m) s)
    ?_ ?_ ?_ s
  · simp [replaceFrom_nil]
  · intro r ih
    rw [replaceFrom_hit _ _ _ (pat_ne_nil n)]
    have e1 : countAt (pat m) (['%', 's'] ++ replaceFrom (pat n) ['%', 's'] 0 r)
        = countAt (pat m) (replaceFrom (pat n) ['%', 's'] 0 r) :=
      countAt_pass '\x7b' (m ++ ['\x7d']) ['%', 's'] _ (by decide)
    have hnopre : ¬ ((pat m).isPrefixOf ('\x7b' :: ((n ++ ['\x7d']) ++ r)) = true) := by
      rw [List.isPrefixOf_iff_prefix]
      intro hpre
      exact pat_no_overlap m n r hm hn hne (by simpa [pat] using hpre)
    have e2 : countAt (pat m) (pat n ++ r) = countAt (pat m) r := by
      show countAt (pat m) ('\x7b' :: ((n ++ ['\x7d']) ++ r)) = _
      rw [countAt, if_neg hnopre, Nat.zero_add]
      exact countAt_pass '\x7b' (m ++ ['\x7d']) (n ++ ['\x7d']) r (by simp [hn.1])
    rw [e1, e2, ih]
  · intro c t hno ih
    rw [replaceFrom_miss _ _ _ _ hno]
    have hsame := hit_congr '\x7b' (m ++ ['\x7d']) c (replaceFrom (pat n) ['%', 's'] 0 t) t
      (head_after_replace n ['s'] (m ++ ['\x7d']) t (by simp [hm.1]) (by simp [hp]))
    show countAt ('\x7b' :: (m ++ ['\x7d'])) _ = countAt ('\x7b' :: (m ++ ['\x7d'])) _
    rw [countAt, countAt, hsame]
    exact congrArg _ ih

/-! ## The URL builder in closed form: claims -/

theorem pathNames_ne_nil (params : List Value) (hstr : pathNamesAreStrings params)
    (hex : ∃ key ∈ params, isPathParam key = true) : pathNames params ≠ [] := by
  intro hnil
  have hlen := pathNames_length params hstr
  rw [hnil] at hlen
  obtain ⟨key, hk, hp⟩ := hex
  have hmem : key ∈ params.filter isPathParam := List.mem_filter.mpr ⟨hk, hp⟩
  have : 0 < (params.filter isPathParam).length := List.length_pos_of_mem hmem
  simp at hlen
  omega

theorem argText_markers (names : List String) (sfx : List Char)
    (hnames : ∀ n ∈ names, '%' ∉ n.data) (hsfx : '%' ∉ sfx) :
    countAt ['%', 's'] ('\x22' :: ((argText names).data ++ sfx)) = 0 := by
  cases names with
  | nil =>
    exact countAt_clean '%' ['s'] _ (by simp [argText, hsfx])
  | cons a rest =>
    have hj : '%' ∉ (joinArgs (a :: rest)).data :=
      joinArgs_clean '%' (by decide) (a :: rest) hnames
    have hrest : '%' ∉ ' ' :: '[' :: ((joinArgs (a :: rest)).data ++ sfx) := by
      simp [hj, hsfx]
    have := countAt_clean '%' ['s'] _ hrest
    simp only [argText, String.data_append]
    simpa [countAt, List.isPrefixOf] using this

theorem output_markers (w : List Char) (names : List String) (sfx : List Char)
    (hnames : ∀ n ∈ names, '%' ∉ n.data) (hsfx : '%' ∉ sfx) :
    countAt ['%', 's'] ('(' :: '\x22' :: (w ++ '\x22' :: ((argText names).data ++ sfx)))
      = countAt ['%', 's'] w := by
  have h1 := countAt_pass '%' ['s'] ['(', '\x22'] (w ++ '\x22' :: ((argText names).data ++ sfx))
    (by decide)
  have h2 := countAt_pair_split '%' 's' '\x22' (by decide) ((argText names).data ++ sfx) w
  have h3 := argText_markers names sfx hnames hsfx
  simp only [List.cons_append, List.nil_append] at h1
  rw [h1, h2, h3, Nat.add_zero]

theorem substituted_markers (names : List String) :
    ∀ u : String, names.Nodup →
      (∀ n ∈ names, braceFree n ∧ '%' ∉ n.data) →
      (∀ n ∈ names, occurrences (placeholder n) u = 1) →
      occurrences "%s" (substituted u names) = occurrences "%s" u + names.length := by
  induction names with
  | nil => intro u _ _ _; rfl
  | cons m rest ih =>
    intro u hnd hclean honce
    have hm := hclean m (List.mem_cons_self _ _)
    have hnd2 := List.nodup_cons.mp hnd
    have h1 : occurrences "%s" (Replace u (placeholder m) "%s") = occurrences "%s" u + 1 := by
      have hc := honce m (List.mem_cons_self _ _)
      unfold occurrences at hc ⊢
      rw [placeholder_data] at hc
      rw [Replace_placeholder_data]
      have := marker_count_step m.data hm.1 hm.2 u.data
      simp only [show ("%s" : String).data = ['%', 's'] from rfl]
      rw [this, hc]
    have h2 : ∀ n ∈ rest, occurrences (placeholder n) (Replace u (placeholder m) "%s") = 1 := by
      intro n hn
      have hc := honce n (List.mem_cons_of_mem _ hn)
      have hn2 := hclean n (List.mem_cons_of_mem _ hn)
      have hne : m.data ≠ n.data := by
        intro e
        have : m = n := String.ext e
        exact hnd2.1 (this ▸ hn)
      unfold occurrences at hc ⊢
      rw [placeholder_data] at hc ⊢
      rw [Replace_placeholder_data]
      simp only [show ("%s" : String).data = ['%', 's'] from rfl]
      rw [other_count_step m.data n.data hm.1 hn2.1 hn2.2 hne, hc]
    have h3 := ih (Replace u (placeholder m) "%s") hnd2.2
      (fun n hn => hclean n (List.mem_cons_of_mem _ hn)) h2
    show occurrences "%s" (substituted (Replace u (placeholder m) "%s") rest) = _
    rw [h3, h1, List.length_cons]
    omega

/-- C2: with at least one path parameter, all path parameters carrying
brace-free string names, `ParseUrlParams` returns the text
`("` + u' + `"% [` + n1 + `, ` + ... + `, ` + nk + `])`, where n1..nk are
the names of the path parameters in input order (duplicates kept) and u' is
the URL after replacing, for each of them in that order, every occurrence of
its placeholder by `%s`. -/
theorem ParseUrlParams_path_params (u : String) (params : List Value)
    (hex : ∃ key ∈ params, isPathParam key = true)
    (hstr : pathNamesAreStrings params)
    (hclean : ∀ n ∈ pathNames params, braceFree n) :
    ParseUrlParams u params
      = some ("(\"" ++ substituted u (pathNames params) ++ "\"% ["
              ++ joinArgs (pathNames params) ++ "])") := by
  rw [ParseUrlParams_closed u params hstr hclean]
  have hne := pathNames_ne_nil params hstr hex
  cases hnames : pathNames params with
  | nil => exact absurd hnames hne
  | cons a rest =>
    apply congrArg some
    apply String.ext
    simp [argText, String.data_append]

/-- Witness of C2: the two URLs of the specification, and a duplicated name. -/
theorem ParseUrlParams_path_params_witness :
    ParseUrlParams "/v1/gameservers/\x7bid\x7d" [param "id" "path"]
      = some "(\"/v1/gameservers/%s\"% [id])" ∧
    ParseUrlParams "/v1/a/\x7bx\x7d/b/\x7by\x7d" [param "x" "path", param "y" "path"]
      = some "(\"/v1/a/%s/b/%s\"% [x, y])" ∧
    ParseUrlParams "/v1/a/\x7bx\x7d" [param "x" "path", param "q" "query", param "x" "path"]
      = some "(\"/v1/a/%s\"% [x, x])" :=
  ⟨(ParseUrlParams_path_params "/v1/gameservers/\x7bid\x7d" [param "id" "path"]
      (by decide) (by decide) (by decide)).trans (by decide),
   (ParseUrlParams_path_params "/v1/a/\x7bx\x7d/b/\x7by\x7d"
      [param "x" "path", param "y" "path"] (by decide) (by decide) (by decide)).trans
      (by decide),
   (ParseUrlParams_path_params "/v1/a/\x7bx\x7d"
      [param "x" "path", param "q" "query", param "x" "path"]
      (by decide) (by decide) (by decide)).trans (by decide)⟩

/-- C8: a placeholder `{n}` of the URL whose name differs from the name of
every path parameter passes through: `ParseUrlParams` returns, and its output
still contains the token `{n}` (all names being brace-free strings). -/
theorem ParseUrlParams_unmatched (u n : String) (params : List Value)
    (hn : braceFree n)
    (hstr : pathNamesAreStrings params)
    (hclean : ∀ m ∈ pathNames params, braceFree m ∧ m ≠ n)
    (hocc : occursIn (placeholder n) u) :
    ∃ out, ParseUrlParams u params = some out ∧ occursIn (placeholder n) out := by
  refine ⟨_, ParseUrlParams_closed u params hstr (fun m hm => (hclean m hm).1), ?_⟩
  have hsub := substituted_survives n hn (pathNames params) u hclean hocc
  unfold occursIn at hsub ⊢
  obtain ⟨a, b, hab⟩ := hsub
  split
  · exact ⟨'(' :: '\x22' :: a, b ++ '\x22' :: ((argText (pathNames params)).data ++ [']', ')']),
      by simp [String.data_append, ← hab]⟩
  · exact ⟨'(' :: '\x22' :: a, b ++ '\x22' :: ((argText (pathNames params)).data ++ [')']),
      by simp [String.data_append, ← hab]⟩

/-- Witness of C8: the URL `/v1/a/{x}/b/{y}` with the single path parameter
`x` keeps the token `{y}`. -/
theorem ParseUrlParams_unmatched_witness :
    ParseUrlParams "/v1/a/\x7bx\x7d/b/\x7by\x7d" [param "x" "path"]
      = some "(\"/v1/a/%s/b/\x7by\x7d\"% [x])" ∧
    occursIn (placeholder "y") "(\"/v1/a/%s/b/\x7by\x7d\"% [x])" := by
  obtain ⟨out, h1, h2⟩ := ParseUrlParams_unmatched "/v1/a/\x7bx\x7d/b/\x7by\x7d" "y"
    [param "x" "path"] (by decide) (by decide) (by decide)
    ⟨"/v1/a/\x7bx\x7d/b/".data, [], by decide⟩
  have e : ParseUrlParams "/v1/a/\x7bx\x7d/b/\x7by\x7d" [param "x" "path"]
      = some "(\"/v1/a/%s/b/\x7by\x7d\"% [x])" := by decide
  rw [h1] at e
  rw [h1, e]
  rw [Option.some.inj e] at h2
  exact ⟨rfl, h2⟩

theorem afterLast_absent (c : Char) (t : List Char) (h : c ∉ t) : afterLast c t = none := by
  induction t with
  | nil => rfl
  | cons x t ih =>
    have hx : x ≠ c := fun e => h (e ▸ List.mem_cons_self _ _)
    have ht : c ∉ t := fun k => h (List.mem_cons_of_mem _ k)
    simp [afterLast, ih ht, hx]

theorem afterLast_split (c : Char) (b : List Char) (h : c ∉ b) (a : List Char) :
    afterLast c (a ++ c :: b) = some b := by
  induction a with
  | nil => simp [afterLast, afterLast_absent c b h]
  | cons x a ih =>
    show afterLast c (x :: (a ++ c :: b)) = some b
    simp [afterLast, ih]

theorem argumentList_none (out : String) (h : '%' ∉ out.data) : argumentList out = none := by
  simp [argumentList, afterLast_absent '%' out.data h]

theorem argumentList_some (out : String) (a inner : List Char) (h : '%' ∉ inner)
    (hout : out.data = a ++ '%' :: ' ' :: '[' :: (inner ++ [']', ')'])) :
    argumentList out = some inner := by
  have hb : '%' ∉ ' ' :: '[' :: (inner ++ [']', ')']) := by simp [h]
  have h1 := afterLast_split '%' _ hb a
  simp [argumentList, hout, h1]

theorem joinArgs_commas (names : List String) (hnames : ∀ n ∈ names, ',' ∉ n.data)
    (hne : names ≠ []) : (joinArgs names).data.count ',' + 1 = names.length := by
  induction names with
  | nil => exact absurd rfl hne
  | cons a rest ih =>
    have ha : a.data.count ',' = 0 :=
      List.count_eq_zero.mpr (hnames a (List.mem_cons_self _ _))
    cases rest with
    | nil => simp [joinArgs, ha]
    | cons b rest =>
      have h2 := ih (fun n hn => hnames n (List.mem_cons_of_mem _ hn)) (by simp)
      simp only [joinArgs, String.data_append, List.count_append, ha, List.length_cons] at h2 ⊢
      have hsep : (", " : String).data.count ',' = 1 := by decide
      rw [hsep]
      omega

theorem joinArgs_not_blank (a : String) (rest : List String) (ha : isBlank a.data = false) :
    isBlank (joinArgs (a :: rest)).data = false := by
  cases rest with
  | nil => simpa [joinArgs] using ha
  | cons b rest =>
    unfold isBlank at ha ⊢
    simp only [joinArgs, String.data_append, List.all_append, ha, Bool.false_and]

theorem entryCount_joinArgs (a : String) (rest : List String)
    (hnames : ∀ n ∈ a :: rest, ',' ∉ n.data ∧ isBlank n.data = false) :
    entryCount (joinArgs (a :: rest)).data = (a :: rest).length := by
  have h1 := joinArgs_commas (a :: rest) (fun n hn => (hnames n hn).1) (by simp)
  have h2 := joinArgs_not_blank a rest (hnames a (List.mem_cons_self _ _)).2
  simp only [entryCount, h2]
  exact h1

/-- The argument list of the built expression has one entry per name, for
names that are comma-free and not blank. -/
theorem output_entries (w : String) (names : List String)
    (hw : names = [] → '%' ∉ w.data)
    (hnames : ∀ n ∈ names, '%' ∉ n.data ∧ ',' ∉ n.data ∧ isBlank n.data = false) :
    argEntries ("(" ++ (if names.length > 0
        then "\"" ++ w ++ "\"" ++ argText names ++ "]"
        else "\"" ++ w ++ "\"" ++ argText names) ++ ")") = names.length := by
  cases names with
  | nil =>
    have h := hw rfl
    have hnone := argumentList_none ("(" ++ ("\"" ++ w ++ "\"" ++ argText []) ++ ")")
      (by simp [String.data_append, argText, h])
    simp [argEntries, hnone]
  | cons a rest =>
    have hj : '%' ∉ (joinArgs (a :: rest)).data :=
      joinArgs_clean '%' (by decide) (a :: rest) (fun n hn => (hnames n hn).1)
    have hsome := argumentList_some
      ("(" ++ ("\"" ++ w ++ "\"" ++ argText (a :: rest) ++ "]") ++ ")")
      ('(' :: '\x22' :: (w.data ++ ['\x22'])) (joinArgs (a :: rest)).data hj
      (by simp [String.data_append, argText])
    have hcount := entryCount_joinArgs a rest (fun n hn => (hnames n hn).2)
    simp only [List.length_cons, Nat.zero_lt_succ, if_true, gt_iff_lt] at hcount ⊢
    simp only [argEntries, hsome]
    exact hcount

/-- C10, as the code has it: one argument per format marker. For a URL
without `%`, path parameters with pairwise distinct string names that are
not blank and contain none of `{`, `}`, `%` and `,`, and each placeholder
occurring exactly once in the URL, the number of occurrences of `%s` in the
output of `ParseUrlParams` and the number of entries of its argument list
after `% [` both equal the number of path parameters. -/
theorem ParseUrlParams_marker_count (u : String) (params : List Value)
    (hu : '%' ∉ u.data)
    (hstr : pathNamesAreStrings params)
    (hnodup : (pathNames params).Nodup)
    (hclean : ∀ n ∈ pathNames params, braceFree n ∧ '%' ∉ n.data)
    (hentry : ∀ n ∈ pathNames params, ',' ∉ n.data ∧ isBlank n.data = false)
    (honce : ∀ n ∈ pathNames params, occurrences (placeholder n) u = 1) :
    ∃ out, ParseUrlParams u params = some out ∧
      occurrences "%s" out = (params.filter isPathParam).length ∧
      argEntries out = (params.filter isPathParam).length ∧
      argEntries out = occurrences "%s" out := by
  have hmarkers : occurrences "%s" ("(" ++ (if (pathNames params).length > 0
        then "\"" ++ substituted u (pathNames params) ++ "\""
              ++ argText (pathNames params) ++ "]"
        else "\"" ++ substituted u (pathNames params) ++ "\""
              ++ argText (pathNames params)) ++ ")")
      = (params.filter isPathParam).length := by
    have hsub := substituted_markers (pathNames params) u hnodup hclean honce
    have hu0 : occurrences "%s" u = 0 := countAt_clean '%' ['s'] u.data hu
    rw [hu0, Nat.zero_add, pathNames_length params hstr] at hsub
    rw [← hsub]
    unfold occurrences
    simp only [show ("%s" : String).data = ['%', 's'] from rfl]
    split
    · have := output_markers (substituted u (pathNames params)).data (pathNames params)
        [']', ')'] (fun n hn => (hclean n hn).2) (by decide)
      simpa [String.data_append] using this
    · have := output_markers (substituted u (pathNames params)).data (pathNames params)
        [')'] (fun n hn => (hclean n hn).2) (by decide)
      simpa [String.data_append] using this
  have hentries := output_entries (substituted u (pathNames params)) (pathNames params)
    (fun hnil => by rw [hnil]; exact hu)
    (fun n hn => ⟨(hclean n hn).2, (hentry n hn).1, (hentry n hn).2⟩)
  have hentries2 := hentries.trans (pathNames_length params hstr)
  exact ⟨_, ParseUrlParams_closed u params hstr (fun m hm => (hclean m hm).1),
    hmarkers, hentries2, hentries2.trans hmarkers.symm⟩

/-- Witness of C10 as amended: two placeholders, two markers, two arguments. -/
theorem ParseUrlParams_marker_count_witness :
    ParseUrlParams "/v1/a/\x7bx\x7d/b/\x7by\x7d" [param "x" "path", param "y" "path"]
      = some "(\"/v1/a/%s/b/%s\"% [x, y])" ∧
    occurrences "%s" "(\"/v1/a/%s/b/%s\"% [x, y])" = 2 ∧
    argEntries "(\"/v1/a/%s/b/%s\"% [x, y])" = 2 := by
  obtain ⟨out, h1, h2, h3, _⟩ := ParseUrlParams_marker_count "/v1/a/\x7bx\x7d/b/\x7by\x7d"
    [param "x" "path", param "y" "path"] (by decide) (by decide) (by decide) (by decide)
    (by decide) (by decide)
  have e : ParseUrlParams "/v1/a/\x7bx\x7d/b/\x7by\x7d" [param "x" "path", param "y" "path"]
      = some "(\"/v1/a/%s/b/%s\"% [x, y])" := by decide
  rw [h1] at e
  rw [h1, e]
  rw [Option.some.inj e] at h2 h3
  exact ⟨rfl, h2, h3⟩

/-- C10 fails as stated: the empty name and the name `a, b` meet every
hypothesis of the claim (a URL without `%`, one path parameter with a string
name free of `{`, `}` and `%`, its placeholder occurring once), and the
built expression has one format marker with an argument list of no entry,
respectively of two entries. -/
theorem ParseUrlParams_marker_count_fails :
    ('%' ∉ ("/v1/\x7b\x7d" : String).data ∧
      pathNamesAreStrings [param "" "path"] ∧
      (pathNames [param "" "path"]).Nodup ∧
      (∀ n ∈ pathNames [param "" "path"], braceFree n ∧ '%' ∉ n.data) ∧
      (∀ n ∈ pathNames [param "" "path"], occurrences (placeholder n) "/v1/\x7b\x7d" = 1) ∧
      ParseUrlParams "/v1/\x7b\x7d" [param "" "path"] = some "(\"/v1/%s\"% [])" ∧
      occurrences "%s" "(\"/v1/%s\"% [])" = 1 ∧
      argEntries "(\"/v1/%s\"% [])" = 0) ∧
    ('%' ∉ ("/v1/\x7ba, b\x7d" : String).data ∧
      pathNamesAreStrings [param "a, b" "path"] ∧
      (pathNames [param "a, b" "path"]).Nodup ∧
      (∀ n ∈ pathNames [param "a, b" "path"], braceFree n ∧ '%' ∉ n.data) ∧
      (∀ n ∈ pathNames [param "a, b" "path"],
        occurrences (placeholder n) "/v1/\x7ba, b\x7d" = 1) ∧
      ParseUrlParams "/v1/\x7ba, b\x7d" [param "a, b" "path"]
        = some "(\"/v1/%s\"% [a, b])" ∧
      occurrences "%s" "(\"/v1/%s\"% [a, b])" = 1 ∧
      argEntries "(\"/v1/%s\"% [a, b])" = 2) := by
  refine ⟨⟨?_, ?_, ?_, ?_, ?_, ?_, ?_, ?_⟩, ⟨?_, ?_, ?_, ?_, ?_, ?_, ?_, ?_⟩⟩ <;> decide

/-! ## The run loop -/

theorem idents_append (a b : List LogEvent) : idents (a ++ b) = idents a ++ idents b := by
  simp [idents, List.filterMap_append]

theorem renderLoop_ok (exec : String → Value → Except String String)
    (paths : List (String × Value)) :
    ∀ (texts : List String) (requests : String) (w : World),
      List.Forall₂ (fun p t => exec p.1 p.2 = Except.ok t) paths texts →
      renderLoop exec paths requests w
        = Except.ok (requests ++ concatAll texts,
            { w with calls := w.calls ++ paths,
                     log := w.log ++ paths.map (fun p => LogEvent.parsing p.1) }) := by
  induction paths with
  | nil =>
    intro texts requests w h
    cases h
    simp [renderLoop, concatAll]
  | cons p rest ih =>
    intro texts requests w h
    cases h with
    | cons hp hrest =>
      rename_i t ts
      obtain ⟨key, value⟩ := p
      simp only at hp
      simp only [renderLoop, hp]
      rw [ih ts _ _ hrest]
      simp [concatAll, String.append_assoc, List.append_assoc]

theorem renderLoop_frame (exec : String → Value → Except String String)
    (paths : List (String × Value)) :
    ∀ (requests : String) (w : World),
      (∀ r w1, renderLoop exec paths requests w = Except.ok (r, w1) →
        w1.files = w.files ∧ idents w1.log = idents w.log) ∧
      (∀ w1, renderLoop exec paths requests w = Except.error w1 →
        w1.files = w.files ∧ idents w1.log = idents w.log) := by
  induction paths with
  | nil =>
    intro requests w
    constructor
    · intro r w1 h
      simp only [renderLoop, Except.ok.injEq, Prod.mk.injEq] at h
      rw [← h.2]
      exact ⟨rfl, rfl⟩
    · intro w1 h
      simp [renderLoop] at h
  | cons p rest ih =>
    intro requests w
    obtain ⟨key, value⟩ := p
    cases hx : exec key value with
    | error err =>
      constructor
      · intro r w1 h
        simp [renderLoop, hx] at h
      · intro w1 h
        simp only [renderLoop, hx, Except.error.injEq] at h
        rw [← h]
        simp [fatal, idents_append, idents]
    | ok text =>
      have hrec := ih (requests ++ text)
        { files := w.files, log := w.log ++ [LogEvent.parsing key],
          calls := w.calls ++ [(key, value)] }
      constructor
      · intro r w1 h
        simp only [renderLoop, hx] at h
        have := hrec.1 r w1 h
        simpa [idents_append, idents] using this
      · intro w1 h
        simp only [renderLoop, hx] at h
        have := hrec.2 w1 h
        simpa [idents_append, idents] using this

theorem renderLoop_fails (exec : String → Value → Except String String)
    (paths : List (String × Value)) :
    ∀ (requests : String) (w : World),
      (∃ p ∈ paths, ∃ err, exec p.1 p.2 = Except.error err) →
      ∃ w1, renderLoop exec paths requests w = Except.error w1 := by
  induction paths with
  | nil =>
    intro requests w h
    obtain ⟨p, hp, _⟩ := h
    cases hp
  | cons p rest ih =>
    intro requests w h
    obtain ⟨key, value⟩ := p
    cases hx : exec key value with
    | error err =>
      refine ⟨fatal { w with calls := w.calls ++ [(key, value)] }
        ("Parsing `" ++ key ++ "` failed: " ++ err), ?_⟩
      simp only [renderLoop, hx]
    | ok text =>
      obtain ⟨q, hq, err, he⟩ := h
      rcases List.mem_cons.mp hq with hq1 | hq2
      · rw [hq1] at he
        simp only at he
        rw [hx] at he
        cases he
      · obtain ⟨w1, hw1⟩ := ih (requests ++ text)
          { files := w.files, log := w.log ++ [LogEvent.parsing key],
            calls := w.calls ++ [(key, value)] } ⟨q, hq2, err, he⟩
        exact ⟨w1, by simp only [renderLoop, hx]; exact hw1⟩

theorem processFile_render_failure (env : Env) (w : World) (d : String)
    (exec : String → Value → Except String String)
    (htpl : env.requestTpl = Except.ok exec)
    (hfail : ∃ p ∈ env.paths d, ∃ err, exec p.1 p.2 = Except.error err) :
    ∃ w1, processFile env w d = Except.error w1 ∧ w1.files = w.files ∧
      idents w1.log = idents w.log ++ [ToUpper d] := by
  obtain ⟨w1, hw1⟩ := renderLoop_fails exec (env.paths d) ""
    { w with log := w.log ++ [LogEvent.ident (ToUpper d)] } hfail
  have hfr := (renderLoop_frame exec (env.paths d) ""
    { w with log := w.log ++ [LogEvent.ident (ToUpper d)] }).2 w1 hw1
  refine ⟨w1, ?_, hfr.1, ?_⟩
  · simp only [processFile, htpl, hw1]
  · rw [hfr.2]
    simp [idents_append, idents]

theorem processFile_frame (env : Env) (w w1 : World) (f : String)
    (h : processFile env w f = Except.ok w1) :
    (∀ g, g ≠ outputFile f → w1.files g = w.files g) ∧
      idents w1.log = idents w.log ++ [ToUpper f] := by
  unfold processFile at h
  cases htpl : env.requestTpl with
  | error err => simp [htpl] at h
  | ok exec =>
    simp only [htpl] at h
    cases hr : renderLoop exec (env.paths f) ""
        { w with log := w.log ++ [LogEvent.ident (ToUpper f)] } with
    | error w2 => simp [hr] at h
    | ok res =>
      obtain ⟨requests, w2⟩ := res
      have hfr := (renderLoop_frame exec (env.paths f) ""
        { w with log := w.log ++ [LogEvent.ident (ToUpper f)] }).1 requests w2 hr
      simp only [hr] at h
      cases hc : env.clientTpl with
      | error err => simp [hc] at h
      | ok assemble =>
        simp only [hc] at h
        cases hcr : env.createErr (outputFile f) with
        | some err => simp [hcr] at h
        | none =>
          simp only [hcr] at h
          cases ho : (assemble header requests).2 with
          | some err => simp [ho] at h
          | none =>
            simp only [ho, Except.ok.injEq] at h
            rw [← h]
            constructor
            · intro g hg
              simp only [writeFile, if_neg hg]
              exact congrFun hfr.1 g
            · simp only
              rw [hfr.2]
              simp [idents_append, idents]

theorem runFiles_frame (env : Env) (ids : List String) :
    ∀ (w w1 : World), runFiles env ids w = Except.ok w1 →
      (∀ g, (∀ i ∈ ids, g ≠ outputFile i) → w1.files g = w.files g) ∧
        idents w1.log = idents w.log ++ ids.map ToUpper := by
  induction ids with
  | nil =>
    intro w w1 h
    simp only [runFiles, Except.ok.injEq] at h
    rw [← h]
    simp
  | cons f rest ih =>
    intro w w1 h
    simp only [runFiles] at h
    cases hp : processFile env w f with
    | error w2 => simp [hp] at h
    | ok w2 =>
      simp only [hp] at h
      have h1 := processFile_frame env w w2 f hp
      have h2 := ih w2 w1 h
      constructor
      · intro g hg
        rw [h2.1 g (fun i hi => hg i (List.mem_cons_of_mem _ hi)),
          h1.1 g (hg f (List.mem_cons_self _ _))]
      · rw [h2.2, h1.2]
        simp

theorem runFiles_append (env : Env) (a b : List String) :
    ∀ (w w1 : World), runFiles env a w = Except.ok w1 →
      runFiles env (a ++ b) w = runFiles env b w1 := by
  induction a with
  | nil =>
    intro w w1 h
    simp only [runFiles, Except.ok.injEq] at h
    rw [← h]
    rfl
  | cons f rest ih =>
    intro w w1 h
    simp only [runFiles] at h
    cases hp : processFile env w f with
    | error w2 => simp [hp] at h
    | ok w2 =>
      simp only [hp] at h
      simp only [List.cons_append, runFiles, hp]
      exact ih w2 w1 h

/-! ## The fragment renderer and the fatal path: claims -/

theorem outputs_apart (pre post : List String) (d : String)
    (hsplit : swagger_files = pre ++ d :: post) :
    ∀ g ∈ d :: post, ∀ i ∈ pre, outputFile g ≠ outputFile i := by
  have hnd : (swagger_files.map outputFile).Nodup := by decide
  rw [hsplit, List.map_append, List.nodup_append] at hnd
  intro g hg i hi heq
  have h1 : outputFile i ∈ pre.map outputFile := List.mem_map_of_mem _ hi
  have h2 : outputFile g ∈ (d :: post).map outputFile := List.mem_map_of_mem _ hg
  rw [heq] at h2
  exact hnd.2.2 h1 h2

/-- C6: the fragment renderer executes the request template exactly once per
entry of the enumerated path mapping. When every execution succeeds, the k
entries (p1, d1), ..., (pk, dk) give k executions, the i-th on the context
with path pi and data di, and the accumulated text is the concatenation of
the k rendered fragments in that order (the empty text for k = 0). -/
theorem renderLoop_once_per_path (exec : String → Value → Except String String)
    (paths : List (String × Value)) (texts : List String) (w : World)
    (hok : List.Forall₂ (fun p t => exec p.1 p.2 = Except.ok t) paths texts) :
    renderLoop exec paths "" w
      = Except.ok (concatAll texts,
          { w with calls := w.calls ++ paths,
                   log := w.log ++ paths.map (fun p => LogEvent.parsing p.1) }) := by
  have h := renderLoop_ok exec paths texts "" w hok
  rw [h]
  have e : "" ++ concatAll texts = concatAll texts := by
    apply String.ext
    simp [String.data_append]
  rw [e]

/-- Witness of C6: the description with the single path `/v1/health` mapping
to the single method `get` gives exactly one execution, on `/v1/health`. -/
theorem renderLoop_once_per_path_witness :
    renderLoop demoRequest [("/v1/health", Value.obj [("get", Value.obj [])])] ""
        (startWorld (fun _ => none))
      = Except.ok ("# /v1/health\n",
          { files := fun _ => none,
            log := [LogEvent.parsing "/v1/health"],
            calls := [("/v1/health", Value.obj [("get", Value.obj [])])] }) :=
  renderLoop_once_per_path demoRequest [("/v1/health", Value.obj [("get", Value.obj [])])]
    ["# /v1/health\n"] (startWorld (fun _ => none))
    (List.Forall₂.cons rfl List.Forall₂.nil)

/-- C7: the fatal path of a run over `sdk`, `alpha`, `beta`. When the
identifiers before `d` have been processed, leaving the world `w1`, and the
rendering of some path of the description `d` fails, the run aborts: the
files are exactly those of `w1` (what was written is kept, nothing is rolled
back), the output file of `d` and of every later identifier is as it was
before the run, and the identifiers announced in the log end with `d`. -/
theorem main_render_failure (env : Env) (files0 : String → Option String)
    (pre post : List String) (d : String)
    (exec : String → Value → Except String String) (w1 : World)
    (hsplit : swagger_files = pre ++ d :: post)
    (htpl : env.requestTpl = Except.ok exec)
    (hpre : runFiles env pre (startWorld files0) = Except.ok w1)
    (hfail : ∃ p ∈ env.paths d, ∃ err, exec p.1 p.2 = Except.error err) :
    (main env files0).completed = false ∧
    (main env files0).world.files = w1.files ∧
    (main env files0).world.files (outputFile d) = files0 (outputFile d) ∧
    (∀ f ∈ post, (main env files0).world.files (outputFile f) = files0 (outputFile f)) ∧
    idents (main env files0).world.log = (pre ++ [d]).map ToUpper := by
  obtain ⟨w2, hw2, hfiles, hlog⟩ := processFile_render_failure env w1 d exec htpl hfail
  have hrun : runFiles env swagger_files (startWorld files0) = Except.error w2 := by
    rw [hsplit, runFiles_append env pre (d :: post) _ w1 hpre]
    simp only [runFiles, hw2]
  have hmain : main env files0 = ⟨w2, false⟩ := by
    simp only [main, hrun]
  have hframe := runFiles_frame env pre (startWorld files0) w1 hpre
  have hapart := outputs_apart pre post d hsplit
  rw [hmain]
  refine ⟨rfl, hfiles, ?_, ?_, ?_⟩
  · show w2.files (outputFile d) = files0 (outputFile d)
    rw [hfiles]
    exact hframe.1 _ (hapart d (List.mem_cons_self _ _))
  · intro f hf
    show w2.files (outputFile f) = files0 (outputFile f)
    rw [hfiles]
    exact hframe.1 _ (hapart f (List.mem_cons_of_mem _ hf))
  · show idents w2.log = _
    rw [hlog, hframe.2]
    simp [startWorld, idents]

/-- Witness of C7: in the demonstration run `sdk` is generated, then a path
of `alpha` fails to render: the file of `sdk` stays, those of `alpha` and
`beta` are not created, and `beta` is never announced. -/
theorem main_render_failure_witness :
    (main demoEnv (fun _ => none)).completed = false ∧
    (main demoEnv (fun _ => none)).world.files (outputFile "sdk")
      = some "# This code is generated by go generate.\n# DO NOT EDIT BY HAND!\n# /v1/health\n" ∧
    (main demoEnv (fun _ => none)).world.files (outputFile "alpha") = none ∧
    (main demoEnv (fun _ => none)).world.files (outputFile "beta") = none ∧
    idents (main demoEnv (fun _ => none)).world.log = ["SDK", "ALPHA"] := by
  have h := main_render_failure demoEnv (fun _ => none) ["sdk"] ["beta"] "alpha" demoRequest
    (match runFiles demoEnv ["sdk"] (startWorld (fun _ => none)) with
      | Except.ok w => w
      | Except.error w => w)
    rfl rfl rfl ⟨("/bad", Value.null), by simp [demoEnv], "no such field", rfl⟩
  refine ⟨h.1, by decide, h.2.2.1, h.2.2.2.1 "beta" (List.mem_singleton.mpr rfl), ?_⟩
  rw [h.2.2.2.2]
  decide

end GodotGen
